import Mathlib

/-!
Verification of the gwork Drive-audit core

Shallow embedding of the gwork repository's audit logic:

* `ExtractDomain`, `Client.IsExternalShare` (internal/drive, permissions
  file) — the domain classifier;
* the pagination loops `Client.ListAllFiles` (internal/drive/files.go) and
  `Client.GetFilePermissions` — modelled by one loop `fetchAllGo`
  parameterised by the per-item conversion, with the remote API modelled
  as the finite script of responses the successive calls return, and the
  context's cancellation signal as a predicate on the index of the check;
* `Auditor.AuditExternalSharing` and `permissionToRecord`
  (internal/audit/sharing.go);
* the exit-code constants (pkg/exitcode) and the `main` error path;
* the CSV report sink (internal/reporter/csv.go), modelled as the pure
  list of rows written, with `sort.Slice` modelled by insertion sort with
  the same comparator.

Go strings are modelled by `String` (byte-wise ordinal comparison of
ASCII data coincides with Lean's character-wise order); `time.Time`
values are modelled by their two observable uses in the reporter
(zero test and formatted text).
-/

/-- Embeds `drive.Permission` from internal/drive: id, type, role, emailAddress,
domain, displayName, all Go strings. -/
structure Permission where
  id : String
  type : String
  role : String
  emailAddress : String
  domain : String
  displayName : String
deriving DecidableEq, Repr

/-- The scan behind `ExtractDomain`: the characters after the last `'@'` of the
list, or `none` when no `'@'` occurs (`strings.LastIndex` returning `-1`). -/
def afterLastAt : List Char → Option (List Char)
  | [] => none
  | c :: rest =>
    match afterLastAt rest with
    | some s => some s
    | none => if c = '@' then some rest else none

/-- Embeds `ExtractDomain` from internal/drive: `strings.LastIndex(email, "@")`;
if the index is negative return `""`, else the suffix after that `@`. -/
def ExtractDomain (email : String) : String :=
  match afterLastAt email.data with
  | some s => String.mk s
  | none => ""

/-- Embeds `Client.IsExternalShare` from internal/drive, with the client's
configured organisation domain `c.domain` passed explicitly. -/
def IsExternalShare (domain : String) (perm : Permission) : Bool :=
  match perm.type with
  | "anyone" => true
  | "domain" => perm.domain != domain
  | "user" | "group" =>
    if perm.emailAddress == "" then false
    else ExtractDomain perm.emailAddress != domain
  | _ => false

theorem afterLastAt_append_at (pre suf : List Char) (h : Char.ofNat 64 ∉ suf) :
    afterLastAt (pre ++ Char.ofNat 64 :: suf) = some suf := by
  have hsuf : afterLastAt suf = none := by
    induction suf with
    | nil => rfl
    | cons c cs ih =>
      simp only [List.mem_cons, not_or] at h
      simp [afterLastAt, ih h.2, if_neg (Ne.symm h.1)]
  induction pre with
  | nil => simp [afterLastAt, hsuf]
  | cons c cs ih => simp [afterLastAt, ih]

theorem afterLastAt_no_at (l : List Char) (h : Char.ofNat 64 ∉ l) :
    afterLastAt l = none := by
  induction l with
  | nil => rfl
  | cons c cs ih =>
    simp only [List.mem_cons, not_or] at h
    simp [afterLastAt, ih h.2, if_neg (Ne.symm h.1)]

/-- C8: `ExtractDomain` returns the substring after the last `@` of the
email (so only the final segment after the last `@` is the domain), and the
empty string when the email contains no `@`; in particular `dom` for
`local@dom`, `dom` for `a@b@dom`, and `""` for an email without `@`. -/
theorem extractDomain_spec (pre suf l : List Char) :
    (Char.ofNat 64 ∉ suf →
      ExtractDomain (String.mk (pre ++ Char.ofNat 64 :: suf)) = String.mk suf)
    ∧ (Char.ofNat 64 ∉ l → ExtractDomain (String.mk l) = "") := by
  constructor
  · intro h
    simp [ExtractDomain, afterLastAt_append_at pre suf h]
  · intro h
    simp [ExtractDomain, afterLastAt_no_at l h]

/-- Witness for C8 at concrete inputs: `local@dom`, `a@b@dom` (last `@`
wins) and a no-`@` email. -/
theorem extractDomain_spec_witness :
    ExtractDomain "local@dom" = "dom" ∧ ExtractDomain "a@b@dom" = "dom"
    ∧ ExtractDomain "nodomain" = "" := by
  refine ⟨?_, ?_, ?_⟩
  · exact (extractDomain_spec "local".data "dom".data []).1 (by decide)
  · exact (extractDomain_spec "a@b".data "dom".data []).1 (by decide)
  · exact (extractDomain_spec [] [] "nodomain".data).2 (by decide)

/-- C1: the decision table of `IsExternalShare`, first match wins: type
`anyone` is always external; type `domain` is external iff the permission
domain differs from the organisation domain; type `user`/`group` is
internal on empty email and otherwise external iff the domain extracted
from the email differs from the organisation domain; any other type is
internal. -/
theorem isExternalShare_decision_table (domain : String) (perm : Permission) :
    (perm.type = "anyone" → IsExternalShare domain perm = true)
    ∧ (perm.type = "domain" →
        (IsExternalShare domain perm = true ↔ perm.domain ≠ domain))
    ∧ ((perm.type = "user" ∨ perm.type = "group") →
        (perm.emailAddress = "" → IsExternalShare domain perm = false)
        ∧ (perm.emailAddress ≠ "" →
            (IsExternalShare domain perm = true ↔
              ExtractDomain perm.emailAddress ≠ domain)))
    ∧ (perm.type ≠ "anyone" → perm.type ≠ "domain" → perm.type ≠ "user" →
        perm.type ≠ "group" → IsExternalShare domain perm = false) := by
  obtain ⟨i, t, r, e, d, n⟩ := perm
  refine ⟨?_, ?_, ?_, ?_⟩
  · rintro rfl; rfl
  · rintro rfl
    simp [IsExternalShare, bne_iff_ne]
  · rintro (rfl | rfl) <;>
      exact ⟨fun he => by
          have h2 : e = "" := he
          simp [IsExternalShare, h2],
        fun he => by
          have h2 : ¬e = "" := he
          simp [IsExternalShare, h2, bne_iff_ne]⟩
  · intro h1 h2 h3 h4
    simp only [IsExternalShare]

/-- Witness for C1: a concrete `anyone` permission is classified external
by the decision table. -/
theorem isExternalShare_decision_table_witness :
    IsExternalShare "example.com"
      ⟨"p1", "anyone", "reader", "", "", ""⟩ = true :=
  (isExternalShare_decision_table "example.com"
    ⟨"p1", "anyone", "reader", "", "", ""⟩).1 rfl

/-- A raw file entry of a listing page: the fields of the remote
`drive.File` that `ListAllFiles` reads (owners modelled as the list of
their email addresses, of which only the first is used). -/
structure ApiFile where
  id : String
  name : String
  mimeType : String
  owners : List String
  createdTime : String
  modifiedTime : String
  size : Int
deriving DecidableEq, Repr

/-- Embeds `drive.FileInfo`: the record `ListAllFiles` accumulates. -/
structure FileInfo where
  id : String
  name : String
  mimeType : String
  ownerEmail : String
  createdTime : String
  modifiedTime : String
  size : Int
deriving DecidableEq, Repr

/-- The per-entry conversion inside `ListAllFiles`'s loop: owner email is
the first owner's address, or `""` when the owner list is empty. -/
def apiFileToFileInfo (f : ApiFile) : FileInfo :=
  { id := f.id
    name := f.name
    mimeType := f.mimeType
    ownerEmail := f.owners.headD ""
    createdTime := f.createdTime
    modifiedTime := f.modifiedTime
    size := f.size }

/-- A raw permission entry of a listing page, as read by
`GetFilePermissions`. -/
structure ApiPermission where
  id : String
  type : String
  role : String
  emailAddress : String
  domain : String
  displayName : String
deriving DecidableEq, Repr

/-- The per-entry conversion inside `GetFilePermissions`'s loop. -/
def apiPermToPermission (p : ApiPermission) : Permission :=
  { id := p.id
    type := p.type
    role := p.role
    emailAddress := p.emailAddress
    domain := p.domain
    displayName := p.displayName }

/-- One response of the remote listing API: a page of items with the next
continuation token, or a transport failure. -/
inductive PageCall (β : Type) where
  | ok (items : List β) (nextPageToken : String)
  | fail
deriving DecidableEq, Repr

/-- Outcome of a pagination loop: normal completion, cancellation
observed at a check (returning the items accumulated so far, as the Go
code returns `allFiles, ctx.Err()`), or a transport error (the Go code
returns `nil, err`, discarding the accumulator). -/
inductive FetchResult (α : Type) where
  | ok (items : List α)
  | cancelled (sofar : List α)
  | apiError
deriving DecidableEq, Repr

/-- The pagination loop shared by `ListAllFiles` and
`GetFilePermissions`: check the cancellation signal, issue the next call,
append the page's converted items to the accumulator, replace the token,
and stop when the returned token is empty. The remote API is modelled by
the finite script `calls` of responses that successive calls return;
`none` means the loop would issue a call beyond the script. -/
def fetchAllGo (cancel : Nat → Bool) (conv : β → α) :
    Nat → List α → List (PageCall β) → Option (FetchResult α)
  | idx, acc, [] =>
    if cancel idx then some (FetchResult.cancelled acc) else none
  | idx, acc, call :: rest =>
    if cancel idx then some (FetchResult.cancelled acc)
    else
      match call with
      | PageCall.fail => some FetchResult.apiError
      | PageCall.ok items tok =>
        if tok = "" then some (FetchResult.ok (acc ++ items.map conv))
        else fetchAllGo cancel conv (idx + 1) (acc ++ items.map conv) rest

/-- Embeds `Client.ListAllFiles` from internal/drive/files.go. -/
def ListAllFiles (cancel : Nat → Bool) (calls : List (PageCall ApiFile)) :
    Option (FetchResult FileInfo) :=
  fetchAllGo cancel apiFileToFileInfo 0 [] calls

/-- Embeds `Client.GetFilePermissions` from internal/drive (permissions
file). -/
def GetFilePermissions (cancel : Nat → Bool)
    (calls : List (PageCall ApiPermission)) :
    Option (FetchResult Permission) :=
  fetchAllGo cancel apiPermToPermission 0 [] calls

/-- A script in which every call succeeds, given as (items, next token)
pages. -/
def pageCalls (pages : List (List β × String)) : List (PageCall β) :=
  pages.map fun p => PageCall.ok p.1 p.2

theorem fetchAllGo_all_ok {β α : Type} (cancel : Nat → Bool) (conv : β → α)
    (hnc : ∀ i, cancel i = false) :
    ∀ (pages : List (List β × String)) (idx : Nat) (acc : List α),
      (∀ p ∈ pages.dropLast, p.2 ≠ "") →
      pages.getLast?.map Prod.snd = some "" →
      fetchAllGo cancel conv idx acc (pageCalls pages) =
        some (FetchResult.ok (acc ++ (pages.flatMap Prod.fst).map conv)) := by
  intro pages
  induction pages with
  | nil => intro idx acc _ hlast; simp at hlast
  | cons p rest ih =>
    intro idx acc hmid hlast
    cases rest with
    | nil =>
      have hp : p.2 = "" := by
        simpa using hlast
      simp [pageCalls, fetchAllGo, hnc idx, hp]
    | cons q rest2 =>
      have hp : p.2 ≠ "" := by
        apply hmid
        simp [List.dropLast]
      have hstep :
          fetchAllGo cancel conv idx acc (pageCalls (p :: q :: rest2)) =
            fetchAllGo cancel conv (idx + 1) (acc ++ p.1.map conv)
              (pageCalls (q :: rest2)) := by
        simp [pageCalls, fetchAllGo, hnc idx, hp]
      rw [hstep, ih (idx + 1) (acc ++ p.1.map conv)
        (fun r hr => hmid r (by simp [List.dropLast, hr]))
        (by simpa using hlast)]
      simp [List.flatMap_cons]

/-- C2: for every terminating sequence of pages (each non-final page with
a nonempty continuation token, the final page with the empty token) and no
cancellation, both `ListAllFiles` and `GetFilePermissions` return the
concatenation of the pages' items, converted in the order received. -/
theorem pagination_concatenates_pages (cancel : Nat → Bool)
    (hnc : ∀ i, cancel i = false) :
    (∀ pagesF : List (List ApiFile × String),
      (∀ p ∈ pagesF.dropLast, p.2 ≠ "") →
      pagesF.getLast?.map Prod.snd = some "" →
      ListAllFiles cancel (pageCalls pagesF) =
        some (FetchResult.ok ((pagesF.flatMap Prod.fst).map apiFileToFileInfo)))
    ∧ (∀ pagesP : List (List ApiPermission × String),
      (∀ p ∈ pagesP.dropLast, p.2 ≠ "") →
      pagesP.getLast?.map Prod.snd = some "" →
      GetFilePermissions cancel (pageCalls pagesP) =
        some (FetchResult.ok
          ((pagesP.flatMap Prod.fst).map apiPermToPermission))) := by
  constructor
  · intro pagesF hmid hlast
    simpa using fetchAllGo_all_ok cancel apiFileToFileInfo hnc pagesF 0 []
      hmid hlast
  · intro pagesP hmid hlast
    simpa using fetchAllGo_all_ok cancel apiPermToPermission hnc pagesP 0 []
      hmid hlast

/-- Witness for C2 at the spec's example pages
`[(items=[a,b], token="t1"), (items=[c], token="")]`: the aggregator
returns `[a,b,c]`. -/
theorem pagination_concatenates_pages_witness :
    ListAllFiles (fun _ => false)
      (pageCalls
        [([⟨"f1", "a", "doc", ["o@x.com"], "", "", 1⟩,
           ⟨"f2", "b", "doc", ["o@x.com"], "", "", 2⟩], "t1"),
         ([⟨"f3", "c", "doc", [], "", "", 3⟩], "")]) =
      some (FetchResult.ok
        [⟨"f1", "a", "doc", "o@x.com", "", "", 1⟩,
         ⟨"f2", "b", "doc", "o@x.com", "", "", 2⟩,
         ⟨"f3", "c", "doc", "", "", "", 3⟩]) := by
  have h := (pagination_concatenates_pages (fun _ => false) (fun i => rfl)).1
    [([⟨"f1", "a", "doc", ["o@x.com"], "", "", 1⟩,
       ⟨"f2", "b", "doc", ["o@x.com"], "", "", 2⟩], "t1"),
     ([⟨"f3", "c", "doc", [], "", "", 3⟩], "")]
    (by decide) rfl
  exact h.trans (by decide)

/-- Go `time.Time` modelled by its two observable uses in the reporter:
the `IsZero` test and the formatted text. -/
structure GoTime where
  isZero : Bool
  formatted : String
deriving DecidableEq, Repr

/-- The zero value of `time.Time`. -/
def GoTime.zero : GoTime := ⟨true, ""⟩

/-- Embeds `audit.FileRecord` from internal/audit/types.go. -/
structure FileRecord where
  ownerEmail : String
  fileID : String
  fileName : String
  fileType : String
  createdTime : GoTime
  modifiedTime : GoTime
  sizeBytes : Int
deriving DecidableEq, Repr

/-- Embeds `audit.ExternalShareRecord` from internal/audit/types.go. -/
structure ExternalShareRecord where
  ownerEmail : String
  fileID : String
  fileName : String
  sharedWithEmail : String
  sharedWithDomain : String
  permissionType : String
  permissionRole : String
  sharedDate : GoTime
deriving DecidableEq, Repr

/-- Embeds `permissionToRecord` from internal/audit/sharing.go: the shared-with
domain is the permission's domain, replaced by the domain extracted from
the email when the domain is empty and the email is not; `SharedDate` is
left at its zero value (not available from the Drive API). -/
def permissionToRecord (file : FileInfo) (perm : Permission) :
    ExternalShareRecord :=
  let sharedWithDomain :=
    if perm.domain = "" ∧ perm.emailAddress ≠ "" then
      ExtractDomain perm.emailAddress
    else perm.domain
  { ownerEmail := file.ownerEmail
    fileID := file.id
    fileName := file.name
    sharedWithEmail := perm.emailAddress
    sharedWithDomain := sharedWithDomain
    permissionType := perm.type
    permissionRole := perm.role
    sharedDate := GoTime.zero }

/-- The error appended for a failing file: wraps the file ID and the
underlying cause (`fmt.Errorf("file %s: %w", file.ID, err)`). -/
structure AuditError where
  fileID : String
  cause : String
deriving DecidableEq, Repr

/-- Embeds `audit.AuditResult` from internal/audit/types.go. -/
structure AuditResult where
  totalFiles : Nat
  totalExternalShares : Nat
  filesProcessed : Nat
  errors : List AuditError
  fileRecords : List FileRecord
  externalShares : List ExternalShareRecord
deriving DecidableEq, Repr

/-- Outcome of `AuditExternalSharing`: normal return, or the early return
`result, ctx.Err()` when cancellation is observed (the partially filled
result is returned together with the cancellation error). -/
inductive AuditOutcome where
  | ok (result : AuditResult)
  | cancelled (result : AuditResult)
deriving DecidableEq, Repr

/-- The `AuditResult` carried by either outcome. -/
def AuditOutcome.result : AuditOutcome → AuditResult
  | AuditOutcome.ok r => r
  | AuditOutcome.cancelled r => r

/-- The per-file loop of `Auditor.AuditExternalSharing`: check the
cancellation signal, fetch the file's permissions (`GetFilePermissions`
abstracted, per the `DriveClient` interface, as a function from file ID to
permissions or an error cause), on failure append one error and continue,
on success count the file and append a record for each permission
classified external; after the loop set `TotalExternalShares`. -/
def auditGo (domain : String) (cancel : Nat → Bool)
    (fetchPerms : String → Except String (List Permission)) :
    Nat → AuditResult → List FileInfo → AuditOutcome
  | _, result, [] =>
    AuditOutcome.ok
      { result with totalExternalShares := result.externalShares.length }
  | idx, result, file :: rest =>
    if cancel idx then AuditOutcome.cancelled result
    else
      match fetchPerms file.id with
      | Except.error cause =>
        auditGo domain cancel fetchPerms (idx + 1)
          { result with errors := result.errors ++ [⟨file.id, cause⟩] } rest
      | Except.ok perms =>
        auditGo domain cancel fetchPerms (idx + 1)
          { result with
              filesProcessed := result.filesProcessed + 1
              externalShares := result.externalShares ++
                (perms.filter (IsExternalShare domain)).map
                  (permissionToRecord file) } rest

/-- Embeds `Auditor.AuditExternalSharing` from internal/audit/sharing.go,
given
the files the (successful) top-level listing returned. -/
def AuditExternalSharing (domain : String) (cancel : Nat → Bool)
    (fetchPerms : String → Except String (List Permission))
    (files : List FileInfo) : AuditOutcome :=
  auditGo domain cancel fetchPerms 0
    { totalFiles := files.length
      totalExternalShares := 0
      filesProcessed := 0
      errors := []
      fileRecords := []
      externalShares := [] } files

/-- The one error a file contributes when its permission fetch fails. -/
def permErrorOf (fetchPerms : String → Except String (List Permission))
    (f : FileInfo) : Option AuditError :=
  match fetchPerms f.id with
  | Except.error c => some ⟨f.id, c⟩
  | Except.ok _ => none

/-- Whether a file's permission fetch succeeds. -/
def fetchOk (fetchPerms : String → Except String (List Permission))
    (f : FileInfo) : Bool :=
  match fetchPerms f.id with
  | Except.ok _ => true
  | Except.error _ => false

/-- The external-share records a file contributes. -/
def sharesOf (domain : String)
    (fetchPerms : String → Except String (List Permission))
    (f : FileInfo) : List ExternalShareRecord :=
  match fetchPerms f.id with
  | Except.ok perms =>
    (perms.filter (IsExternalShare domain)).map (permissionToRecord f)
  | Except.error _ => []

theorem auditGo_no_cancel (domain : String) (cancel : Nat → Bool)
    (fetchPerms : String → Except String (List Permission)) :
    ∀ (files : List FileInfo) (idx : Nat) (r : AuditResult),
      (∀ j, j < files.length → cancel (idx + j) = false) →
      auditGo domain cancel fetchPerms idx r files =
        AuditOutcome.ok
          { totalFiles := r.totalFiles
            totalExternalShares :=
              (r.externalShares ++
                files.flatMap (sharesOf domain fetchPerms)).length
            filesProcessed :=
              r.filesProcessed + (files.filter (fetchOk fetchPerms)).length
            errors := r.errors ++ files.filterMap (permErrorOf fetchPerms)
            fileRecords := r.fileRecords
            externalShares :=
              r.externalShares ++
                files.flatMap (sharesOf domain fetchPerms) } := by
  intro files
  induction files with
  | nil => intro idx r _; simp [auditGo]
  | cons f rest ih =>
    intro idx r h
    have h0 : cancel idx = false := by simpa using h 0 (by simp)
    have hrest : ∀ j, j < rest.length → cancel (idx + 1 + j) = false := by
      intro j hj
      have := h (1 + j) (by simp; omega)
      rwa [← Nat.add_assoc] at this
    cases hfetch : fetchPerms f.id with
    | error cause =>
      simp only [auditGo, h0, Bool.false_eq_true, if_false, hfetch]
      rw [ih (idx + 1) _ hrest]
      simp [permErrorOf, fetchOk, sharesOf, hfetch, List.filterMap_cons,
        List.filter_cons, List.flatMap_cons]
    | ok perms =>
      simp only [auditGo, h0, Bool.false_eq_true, if_false, hfetch]
      rw [ih (idx + 1) _ hrest]
      simp [permErrorOf, fetchOk, sharesOf, hfetch, List.filterMap_cons,
        List.filter_cons, List.flatMap_cons, Nat.add_assoc, Nat.add_comm 1]

theorem fetchAllGo_cancel {β α : Type} (cancel : Nat → Bool) (conv : β → α) :
    ∀ (pre : List (List β × String)) (rest : List (PageCall β)) (idx : Nat)
      (acc : List α),
      (∀ j, j < pre.length → cancel (idx + j) = false) →
      (∀ p ∈ pre, p.2 ≠ "") →
      cancel (idx + pre.length) = true →
      fetchAllGo cancel conv idx acc (pageCalls pre ++ rest) =
        some (FetchResult.cancelled
          (acc ++ (pre.flatMap Prod.fst).map conv)) := by
  intro pre
  induction pre with
  | nil =>
    intro rest idx acc _ _ hc
    have hc0 : cancel idx = true := by simpa using hc
    cases rest with
    | nil => simp [pageCalls, fetchAllGo, hc0]
    | cons c cs => simp [pageCalls, fetchAllGo, hc0]
  | cons p pre' ih =>
    intro rest idx acc h hmid hc
    have h0 : cancel idx = false := by simpa using h 0 (by simp)
    have hp : p.2 ≠ "" := hmid p (by simp)
    have hpre' : ∀ j, j < pre'.length → cancel (idx + 1 + j) = false := by
      intro j hj
      have := h (1 + j) (by simp; omega)
      rwa [← Nat.add_assoc] at this
    have hc' : cancel (idx + 1 + pre'.length) = true := by
      have : idx + 1 + pre'.length = idx + (p :: pre').length := by
        simp; omega
      rwa [this]
    simp only [pageCalls, List.map_cons, List.cons_append, fetchAllGo, h0,
      Bool.false_eq_true, if_false, if_neg hp, List.append_eq]
    rw [show (List.map (fun p => PageCall.ok p.1 p.2) pre' : List (PageCall β))
        = pageCalls pre' from rfl,
      ih rest (idx + 1) (acc ++ p.1.map conv) hpre' (fun q hq => hmid q (by simp [hq])) hc']
    simp [List.flatMap_cons]

theorem auditGo_cancel_at (domain : String) (cancel : Nat → Bool)
    (fetchPerms : String → Except String (List Permission)) :
    ∀ (pre : List FileInfo) (f : FileInfo) (rest : List FileInfo) (idx : Nat)
      (r : AuditResult),
      (∀ j, j < pre.length → cancel (idx + j) = false) →
      cancel (idx + pre.length) = true →
      auditGo domain cancel fetchPerms idx r (pre ++ f :: rest) =
        AuditOutcome.cancelled
          { r with
              filesProcessed :=
                r.filesProcessed + (pre.filter (fetchOk fetchPerms)).length
              errors := r.errors ++ pre.filterMap (permErrorOf fetchPerms)
              externalShares :=
                r.externalShares ++
                  pre.flatMap (sharesOf domain fetchPerms) } := by
  intro pre
  induction pre with
  | nil =>
    intro f rest idx r _ hc
    have hc0 : cancel idx = true := by simpa using hc
    simp [auditGo, hc0]
  | cons p pre' ih =>
    intro f rest idx r h hc
    have h0 : cancel idx = false := by simpa using h 0 (by simp)
    have hpre' : ∀ j, j < pre'.length → cancel (idx + 1 + j) = false := by
      intro j hj
      have := h (1 + j) (by simp; omega)
      rwa [← Nat.add_assoc] at this
    have hc' : cancel (idx + 1 + pre'.length) = true := by
      have : idx + 1 + pre'.length = idx + (p :: pre').length := by
        simp; omega
      rwa [this]
    cases hfetch : fetchPerms p.id with
    | error cause =>
      simp only [List.cons_append, auditGo, h0, Bool.false_eq_true, if_false,
        hfetch, List.append_eq]
      rw [ih f rest (idx + 1) _ hpre' hc']
      simp [permErrorOf, fetchOk, sharesOf, hfetch, List.filterMap_cons,
        List.filter_cons, List.flatMap_cons]
    | ok perms =>
      simp only [List.cons_append, auditGo, h0, Bool.false_eq_true, if_false,
        hfetch, List.append_eq]
      rw [ih f rest (idx + 1) _ hpre' hc']
      simp [permErrorOf, fetchOk, sharesOf, hfetch, List.filterMap_cons,
        List.filter_cons, List.flatMap_cons, Nat.add_assoc, Nat.add_comm 1]

theorem auditGo_shares_from_files (domain : String) (cancel : Nat → Bool)
    (fetchPerms : String → Except String (List Permission)) :
    ∀ (files : List FileInfo) (idx : Nat) (r : AuditResult)
      (rec : ExternalShareRecord),
      rec ∈ (auditGo domain cancel fetchPerms idx r files).result.externalShares →
      rec ∈ r.externalShares ∨
        ∃ f ∈ files, rec.fileID = f.id ∧ rec.fileName = f.name ∧
          rec.ownerEmail = f.ownerEmail := by
  intro files
  induction files with
  | nil =>
    intro idx r rec h
    left
    simpa [auditGo, AuditOutcome.result] using h
  | cons f rest ih =>
    intro idx r rec h
    by_cases hc : cancel idx
    · left
      simpa [auditGo, hc, AuditOutcome.result] using h
    · rw [auditGo, if_neg hc] at h
      cases hfetch : fetchPerms f.id with
      | error cause =>
        rw [hfetch] at h
        rcases ih (idx + 1) _ rec h with h0 | ⟨g, hg, hrec⟩
        · left; exact h0
        · right; exact ⟨g, by simp [hg], hrec⟩
      | ok perms =>
        rw [hfetch] at h
        rcases ih (idx + 1) _ rec h with h0 | ⟨g, hg, hrec⟩
        · rcases List.mem_append.mp h0 with h1 | h2
          · left; exact h1
          · right
            rcases List.mem_map.mp h2 with ⟨p, _, hp⟩
            exact ⟨f, by simp, by simp [← hp, permissionToRecord]⟩
        · right; exact ⟨g, by simp [hg], hrec⟩

/-- C6: every `ExternalShareRecord` in the audit result (whether the run
completed or was cancelled) carries the file ID, file name and owner email
of some file returned by the file listing of that same run. -/
theorem audit_referential_integrity (domain : String) (cancel : Nat → Bool)
    (fetchPerms : String → Except String (List Permission))
    (files : List FileInfo) (rec : ExternalShareRecord)
    (h : rec ∈
      (AuditExternalSharing domain cancel fetchPerms files).result.externalShares) :
    ∃ f ∈ files, rec.fileID = f.id ∧ rec.fileName = f.name ∧
      rec.ownerEmail = f.ownerEmail := by
  rcases auditGo_shares_from_files domain cancel fetchPerms files 0 _ rec h with
    h0 | h1
  · exact absurd h0 (List.not_mem_nil rec)
  · exact h1

/-- Witness for C6: in a one-file run producing one external share, the
record's identifying fields come from that file. -/
theorem audit_referential_integrity_witness :
    ∃ f ∈ ([⟨"f1", "n1", "doc", "o@example.com", "", "", 0⟩] : List FileInfo),
      (permissionToRecord ⟨"f1", "n1", "doc", "o@example.com", "", "", 0⟩
        ⟨"p1", "anyone", "reader", "", "", ""⟩).fileID = f.id ∧
      (permissionToRecord ⟨"f1", "n1", "doc", "o@example.com", "", "", 0⟩
        ⟨"p1", "anyone", "reader", "", "", ""⟩).fileName = f.name ∧
      (permissionToRecord ⟨"f1", "n1", "doc", "o@example.com", "", "", 0⟩
        ⟨"p1", "anyone", "reader", "", "", ""⟩).ownerEmail = f.ownerEmail :=
  audit_referential_integrity "example.com" (fun _ => false)
    (fun _ => Except.ok [⟨"p1", "anyone", "reader", "", "", ""⟩])
    [⟨"f1", "n1", "doc", "o@example.com", "", "", 0⟩]
    (permissionToRecord ⟨"f1", "n1", "doc", "o@example.com", "", "", 0⟩
      ⟨"p1", "anyone", "reader", "", "", ""⟩)
    (by decide)

theorem auditGo_ok_counts (domain : String) (cancel : Nat → Bool)
    (fetchPerms : String → Except String (List Permission)) :
    ∀ (files : List FileInfo) (idx : Nat) (r0 r : AuditResult),
      auditGo domain cancel fetchPerms idx r0 files = AuditOutcome.ok r →
      r.totalExternalShares = r.externalShares.length ∧
      r.totalFiles = r0.totalFiles ∧
      r.filesProcessed + r.errors.length =
        r0.filesProcessed + r0.errors.length + files.length := by
  intro files
  induction files with
  | nil =>
    intro idx r0 r h
    rw [auditGo, AuditOutcome.ok.injEq] at h
    subst h
    simp
  | cons f rest ih =>
    intro idx r0 r h
    by_cases hc : cancel idx
    · rw [auditGo, if_pos hc] at h
      exact absurd h (by simp)
    · rw [auditGo, if_neg hc] at h
      cases hfetch : fetchPerms f.id with
      | error cause =>
        rw [hfetch] at h
        obtain ⟨e1, e2, e3⟩ := ih (idx + 1) _ r h
        simp at e2 e3
        exact ⟨e1, e2, by simp only [List.length_cons]; omega⟩
      | ok perms =>
        rw [hfetch] at h
        obtain ⟨e1, e2, e3⟩ := ih (idx + 1) _ r h
        simp at e2 e3
        exact ⟨e1, e2, by simp only [List.length_cons]; omega⟩

/-- C10: whenever `AuditExternalSharing` returns normally (no cancellation
error, the top-level listing having succeeded), the counts are
consistent: `TotalExternalShares` equals the length of the
`ExternalShares` list, `TotalFiles` equals the number of listed files, and
`FilesProcessed` plus the number of errors equals `TotalFiles`. -/
theorem audit_counts_consistent (domain : String) (cancel : Nat → Bool)
    (fetchPerms : String → Except String (List Permission))
    (files : List FileInfo) (r : AuditResult)
    (h : AuditExternalSharing domain cancel fetchPerms files =
      AuditOutcome.ok r) :
    r.totalExternalShares = r.externalShares.length ∧
    r.totalFiles = files.length ∧
    r.filesProcessed + r.errors.length = r.totalFiles := by
  have hh := auditGo_ok_counts domain cancel fetchPerms files 0 _ r h
  refine ⟨hh.1, by simpa using hh.2.1, ?_⟩
  have h1 := hh.2.1
  have h2 := hh.2.2
  simp only [List.length_nil] at h1 h2
  omega

/-- Witness for C10 on a concrete two-file run with one failing file. -/
theorem audit_counts_consistent_witness :
    ∃ r, AuditExternalSharing "example.com" (fun _ => false)
        (fun fid => if fid = "f1" then Except.error "boom"
          else Except.ok [⟨"p1", "anyone", "reader", "", "", ""⟩])
        [⟨"f1", "n1", "doc", "o@example.com", "", "", 0⟩,
         ⟨"f2", "n2", "doc", "o@example.com", "", "", 0⟩] = AuditOutcome.ok r
      ∧ r.totalExternalShares = r.externalShares.length
      ∧ r.totalFiles = 2
      ∧ r.filesProcessed + r.errors.length = r.totalFiles := by
  refine ⟨_, rfl, ?_⟩
  have h := audit_counts_consistent "example.com" (fun _ => false)
    (fun fid => if fid = "f1" then Except.error "boom"
      else Except.ok [⟨"p1", "anyone", "reader", "", "", ""⟩])
    [⟨"f1", "n1", "doc", "o@example.com", "", "", 0⟩,
     ⟨"f2", "n2", "doc", "o@example.com", "", "", 0⟩] _ rfl
  exact ⟨h.1, by simp [h.2.1], h.2.2⟩

/-- C4: with no cancellation, the audit always completes normally; its
error list is exactly one entry (file ID plus underlying cause) per file
whose permission fetch failed, in listing order; `FilesProcessed` counts
exactly the files whose fetch succeeded (a failing file is not counted);
and the external-share records come only from files whose fetch succeeded
(a failing file contributes none) — one file's failure never aborts the
audit. -/
theorem audit_per_file_failure (domain : String) (cancel : Nat → Bool)
    (fetchPerms : String → Except String (List Permission))
    (files : List FileInfo) (hnc : ∀ i, cancel i = false)
    (k : Nat) (hk : k < files.length) (cause : String)
    (hfail : fetchPerms (files.get ⟨k, hk⟩).id = Except.error cause) :
    ∃ r, AuditExternalSharing domain cancel fetchPerms files =
        AuditOutcome.ok r
      ∧ r.errors = files.filterMap (permErrorOf fetchPerms)
      ∧ permErrorOf fetchPerms (files.get ⟨k, hk⟩) =
          some ⟨(files.get ⟨k, hk⟩).id, cause⟩
      ∧ r.filesProcessed = (files.filter (fetchOk fetchPerms)).length
      ∧ fetchOk fetchPerms (files.get ⟨k, hk⟩) = false
      ∧ r.externalShares = files.flatMap (sharesOf domain fetchPerms)
      ∧ sharesOf domain fetchPerms (files.get ⟨k, hk⟩) = [] := by
  have heq := auditGo_no_cancel domain cancel fetchPerms files 0
    { totalFiles := files.length
      totalExternalShares := 0
      filesProcessed := 0
      errors := []
      fileRecords := []
      externalShares := [] } (fun j _ => hnc (0 + j))
  refine ⟨_, heq, by simp, ?_, by simp, ?_, by simp, ?_⟩
  · simp only [permErrorOf]
    rw [hfail]
  · simp only [fetchOk]
    rw [hfail]
  · simp only [sharesOf]
    rw [hfail]

/-- Witness for C4: a one-file run whose permission fetch fails yields a
normal completion with exactly that error, zero processed files and no
records. -/
theorem audit_per_file_failure_witness :
    ∃ r, AuditExternalSharing "example.com" (fun _ => false)
        (fun _ => Except.error "boom")
        [⟨"f1", "n1", "doc", "o@example.com", "", "", 0⟩] = AuditOutcome.ok r
      ∧ r.errors = [⟨"f1", "boom"⟩]
      ∧ r.filesProcessed = 0
      ∧ r.externalShares = [] := by
  obtain ⟨r, h1, h2, _, h4, _, h6, _⟩ :=
    audit_per_file_failure "example.com" (fun _ => false)
      (fun _ => Except.error "boom")
      [⟨"f1", "n1", "doc", "o@example.com", "", "", 0⟩]
      (fun i => rfl) 0 (by decide) "boom" rfl
  refine ⟨r, h1, ?_, ?_, ?_⟩
  · rw [h2]; rfl
  · rw [h4]; rfl
  · rw [h6]; rfl

/-- C5: cancellation is checked before each page fetch of the pagination
loops and before each file's permission fetch in the sharing audit; when
first observed at check `k`, `ListAllFiles`/`GetFilePermissions` return
the items of the `k` pages already fetched with a cancellation error, and
the audit returns the partially filled result for the `k` files already
handled with a cancellation error — partial results are not discarded. -/
theorem cancellation_partial_results (cancel : Nat → Bool) :
    (∀ (pre : List (List ApiFile × String)) (rest : List (PageCall ApiFile)),
      (∀ j, j < pre.length → cancel j = false) →
      (∀ p ∈ pre, p.2 ≠ "") →
      cancel pre.length = true →
      ListAllFiles cancel (pageCalls pre ++ rest) =
        some (FetchResult.cancelled
          ((pre.flatMap Prod.fst).map apiFileToFileInfo)))
    ∧ (∀ (pre : List (List ApiPermission × String))
        (rest : List (PageCall ApiPermission)),
      (∀ j, j < pre.length → cancel j = false) →
      (∀ p ∈ pre, p.2 ≠ "") →
      cancel pre.length = true →
      GetFilePermissions cancel (pageCalls pre ++ rest) =
        some (FetchResult.cancelled
          ((pre.flatMap Prod.fst).map apiPermToPermission)))
    ∧ (∀ (domain : String)
        (fetchPerms : String → Except String (List Permission))
        (pre : List FileInfo) (f : FileInfo) (rest : List FileInfo),
      (∀ j, j < pre.length → cancel j = false) →
      cancel pre.length = true →
      AuditExternalSharing domain cancel fetchPerms (pre ++ f :: rest) =
        AuditOutcome.cancelled
          { totalFiles := (pre ++ f :: rest).length
            totalExternalShares := 0
            filesProcessed := (pre.filter (fetchOk fetchPerms)).length
            errors := pre.filterMap (permErrorOf fetchPerms)
            fileRecords := []
            externalShares := pre.flatMap (sharesOf domain fetchPerms) }) := by
  refine ⟨?_, ?_, ?_⟩
  · intro pre rest h hmid hc
    have := fetchAllGo_cancel cancel apiFileToFileInfo pre rest 0 []
      (fun j hj => by simpa using h j hj) hmid (by simpa using hc)
    simpa using this
  · intro pre rest h hmid hc
    have := fetchAllGo_cancel cancel apiPermToPermission pre rest 0 []
      (fun j hj => by simpa using h j hj) hmid (by simpa using hc)
    simpa using this
  · intro domain fetchPerms pre f rest h hc
    have := auditGo_cancel_at domain cancel fetchPerms pre f rest 0
      { totalFiles := (pre ++ f :: rest).length
        totalExternalShares := 0
        filesProcessed := 0
        errors := []
        fileRecords := []
        externalShares := [] }
      (fun j hj => by simpa using h j hj) (by simpa using hc)
    simpa [AuditExternalSharing] using this

/-- Witness for C5: cancellation fires at the second check; the first
page's items (respectively the first file's contribution) are kept. -/
theorem cancellation_partial_results_witness :
    AuditExternalSharing "example.com" (fun i => decide (1 ≤ i))
      (fun _ => Except.ok [⟨"p1", "anyone", "reader", "", "", ""⟩])
      [⟨"f1", "n1", "doc", "o@example.com", "", "", 0⟩,
       ⟨"f2", "n2", "doc", "o@example.com", "", "", 0⟩] =
      AuditOutcome.cancelled
        { totalFiles := 2
          totalExternalShares := 0
          filesProcessed := 1
          errors := []
          fileRecords := []
          externalShares :=
            [⟨"o@example.com", "f1", "n1", "", "", "anyone", "reader",
              GoTime.zero⟩] } := by
  have h := (cancellation_partial_results (fun i => decide (1 ≤ i))).2.2
    "example.com"
    (fun _ => Except.ok [⟨"p1", "anyone", "reader", "", "", ""⟩])
    [⟨"f1", "n1", "doc", "o@example.com", "", "", 0⟩]
    ⟨"f2", "n2", "doc", "o@example.com", "", "", 0⟩ []
    (by
      intro j hj
      simp only [List.length_singleton] at hj
      have hj0 : j = 0 := by omega
      subst hj0
      rfl) (by rfl)
  exact h.trans (by decide)

/-- C9: the shared-with domain of the record built by
`permissionToRecord` (applied to each permission classified external in
the sharing audit) is the permission's domain field when non-empty; the
domain extracted from the email when the domain field is empty and the
email is not; and empty when both are empty. -/
theorem sharedWithDomain_derivation (file : FileInfo) (perm : Permission) :
    (perm.domain ≠ "" →
      (permissionToRecord file perm).sharedWithDomain = perm.domain)
    ∧ (perm.domain = "" → perm.emailAddress ≠ "" →
      (permissionToRecord file perm).sharedWithDomain =
        ExtractDomain perm.emailAddress)
    ∧ (perm.domain = "" → perm.emailAddress = "" →
      (permissionToRecord file perm).sharedWithDomain = "") := by
  refine ⟨fun h => ?_, fun h1 h2 => ?_, fun h1 h2 => ?_⟩ <;>
    simp [permissionToRecord, *]

/-- Witness for C9: an external user permission with empty domain field
gets the domain extracted from its email. -/
theorem sharedWithDomain_derivation_witness :
    (permissionToRecord ⟨"f1", "n1", "doc", "o@example.com", "", "", 0⟩
      ⟨"p1", "user", "reader", "x@other.com", "", ""⟩).sharedWithDomain =
      ExtractDomain "x@other.com" :=
  (sharedWithDomain_derivation
    ⟨"f1", "n1", "doc", "o@example.com", "", "", 0⟩
    ⟨"p1", "user", "reader", "x@other.com", "", ""⟩).2.1 rfl (by decide)

namespace exitcode

/-- Embeds `exitcode.Success` from pkg/exitcode. -/
def Success : Nat := 0

/-- Embeds `exitcode.ConfigError` from pkg/exitcode. -/
def ConfigError : Nat := 1

/-- Embeds `exitcode.AuthError` from pkg/exitcode. -/
def AuthError : Nat := 2

/-- Embeds `exitcode.APIError` from pkg/exitcode. -/
def APIError : Nat := 3

/-- Embeds `exitcode.InternalError` from pkg/exitcode. -/
def InternalError : Nat := 10

end exitcode

/-- The five caller-facing outcome classes of a CLI run. -/
inductive CLIOutcome where
  | success
  | configError
  | authError
  | apiError
  | internalError
deriving DecidableEq, Repr

/-- The exit code `main` signals: every error returned by
`rootCmd.Execute()` — the `RunE` handlers wrap configuration,
authentication and remote-API failures into ordinary errors — leads to
`os.Exit(exitcode.InternalError)`; a normal return exits with 0. -/
def mainExitCode : CLIOutcome → Nat
  | CLIOutcome.success => exitcode.Success
  | _ => exitcode.InternalError

/-- C3 fails on the code: although pkg/exitcode defines pairwise distinct
codes for the five outcome classes, `main` signals `InternalError` (10)
for configuration, authentication, remote-API and internal errors alike,
so those four error classes are indistinguishable to a caller. -/
theorem mainExitCode_collapses :
    (exitcode.Success ≠ exitcode.ConfigError
      ∧ exitcode.ConfigError ≠ exitcode.AuthError
      ∧ exitcode.AuthError ≠ exitcode.APIError
      ∧ exitcode.APIError ≠ exitcode.InternalError
      ∧ exitcode.Success ≠ exitcode.AuthError
      ∧ exitcode.Success ≠ exitcode.APIError
      ∧ exitcode.Success ≠ exitcode.InternalError
      ∧ exitcode.ConfigError ≠ exitcode.APIError
      ∧ exitcode.ConfigError ≠ exitcode.InternalError
      ∧ exitcode.AuthError ≠ exitcode.InternalError)
    ∧ mainExitCode CLIOutcome.configError = mainExitCode CLIOutcome.authError
    ∧ mainExitCode CLIOutcome.authError = mainExitCode CLIOutcome.apiError
    ∧ mainExitCode CLIOutcome.apiError =
        mainExitCode CLIOutcome.internalError
    ∧ mainExitCode CLIOutcome.configError = 10 := by
  decide

/-- The reporter's serialization of a (modelled) `time.Time`: empty string
for the zero value, the formatted text otherwise. -/
def formatGoTime (t : GoTime) : String :=
  if t.isZero then "" else t.formatted

/-- The header row of files_by_owner.csv. -/
def filesByOwnerHeader : List String :=
  ["owner_email", "file_id", "file_name", "file_type",
   "created_time", "modified_time", "size_bytes"]

/-- One data row of files_by_owner.csv. -/
def fileRow (rec : FileRecord) : List String :=
  [rec.ownerEmail, rec.fileID, rec.fileName, rec.fileType,
   formatGoTime rec.createdTime, formatGoTime rec.modifiedTime,
   toString rec.sizeBytes]

/-- The header row of external_sharing.csv. -/
def externalSharingHeader : List String :=
  ["owner_email", "file_id", "file_name", "shared_with_email",
   "shared_with_domain", "permission_type", "permission_role",
   "shared_date"]

/-- One data row of external_sharing.csv. -/
def shareRow (rec : ExternalShareRecord) : List String :=
  [rec.ownerEmail, rec.fileID, rec.fileName, rec.sharedWithEmail,
   rec.sharedWithDomain, rec.permissionType, rec.permissionRole,
   formatGoTime rec.sharedDate]

/-- The ordering `WriteFilesByOwner`'s `sort.Slice` call establishes:
owner email ascending, ties broken by file name ascending (Go `<` on
strings, i.e. ordinal, case-sensitive). -/
def fileRecLe (a b : FileRecord) : Prop :=
  a.ownerEmail < b.ownerEmail ∨
    (a.ownerEmail = b.ownerEmail ∧ a.fileName ≤ b.fileName)

/-- The ordering `WriteExternalSharing`'s `sort.Slice` call establishes. -/
def shareRecLe (a b : ExternalShareRecord) : Prop :=
  a.ownerEmail < b.ownerEmail ∨
    (a.ownerEmail = b.ownerEmail ∧ a.fileName ≤ b.fileName)

instance : DecidableRel fileRecLe := fun a b => by
  unfold fileRecLe; infer_instance

instance : DecidableRel shareRecLe := fun a b => by
  unfold shareRecLe; infer_instance

instance : IsTotal FileRecord fileRecLe := by
  constructor
  intro a b
  unfold fileRecLe
  rcases lt_trichotomy a.ownerEmail b.ownerEmail with h | h | h
  · exact Or.inl (Or.inl h)
  · rcases le_total a.fileName b.fileName with h2 | h2
    · exact Or.inl (Or.inr ⟨h, h2⟩)
    · exact Or.inr (Or.inr ⟨h.symm, h2⟩)
  · exact Or.inr (Or.inl h)

instance : IsTrans FileRecord fileRecLe := by
  constructor
  intro a b c hab hbc
  unfold fileRecLe at hab hbc ⊢
  rcases hab with h1 | ⟨e1, l1⟩
  · rcases hbc with h2 | ⟨e2, l2⟩
    · exact Or.inl (h1.trans h2)
    · exact Or.inl (lt_of_lt_of_eq h1 e2)
  · rcases hbc with h2 | ⟨e2, l2⟩
    · exact Or.inl (lt_of_eq_of_lt e1 h2)
    · exact Or.inr ⟨e1.trans e2, l1.trans l2⟩

instance : IsTotal ExternalShareRecord shareRecLe := by
  constructor
  intro a b
  unfold shareRecLe
  rcases lt_trichotomy a.ownerEmail b.ownerEmail with h | h | h
  · exact Or.inl (Or.inl h)
  · rcases le_total a.fileName b.fileName with h2 | h2
    · exact Or.inl (Or.inr ⟨h, h2⟩)
    · exact Or.inr (Or.inr ⟨h.symm, h2⟩)
  · exact Or.inr (Or.inl h)

instance : IsTrans ExternalShareRecord shareRecLe := by
  constructor
  intro a b c hab hbc
  unfold shareRecLe at hab hbc ⊢
  rcases hab with h1 | ⟨e1, l1⟩
  · rcases hbc with h2 | ⟨e2, l2⟩
    · exact Or.inl (h1.trans h2)
    · exact Or.inl (lt_of_lt_of_eq h1 e2)
  · rcases hbc with h2 | ⟨e2, l2⟩
    · exact Or.inl (lt_of_eq_of_lt e1 h2)
    · exact Or.inr ⟨e1.trans e2, l1.trans l2⟩

/-- Embeds `CSVReporter.WriteFilesByOwner` from internal/reporter/csv.go,
modelled as the rows written: the header, then the records sorted by the
`sort.Slice` comparator (`sort.Slice` guarantees exactly a permutation of
the input ordered by the comparator, which insertion sort shares). -/
def WriteFilesByOwner (records : List FileRecord) : List (List String) :=
  filesByOwnerHeader :: (List.insertionSort fileRecLe records).map fileRow

/-- Embeds `CSVReporter.WriteExternalSharing` from
internal/reporter/csv.go,
modelled as the rows written. -/
def WriteExternalSharing (records : List ExternalShareRecord) :
    List (List String) :=
  externalSharingHeader ::
    (List.insertionSort shareRecLe records).map shareRow

/-- Row-level ordering: column 0 (owner_email) ascending, ties broken by
column 2 (file_name) ascending. -/
def rowLe (r s : List String) : Prop :=
  r.getD 0 "" < s.getD 0 "" ∨
    (r.getD 0 "" = s.getD 0 "" ∧ r.getD 2 "" ≤ s.getD 2 "")

theorem fileRow_mono {a b : FileRecord} (h : fileRecLe a b) :
    rowLe (fileRow a) (fileRow b) := h

theorem shareRow_mono {a b : ExternalShareRecord} (h : shareRecLe a b) :
    rowLe (shareRow a) (shareRow b) := h

/-- C7: for arbitrarily ordered input records, the rows written by the
report sink start with the fixed header row, and the data rows are the
input records' rows rearranged (a permutation) into an order sorted by
owner email ascending with ties broken by file name ascending, under
case-sensitive ordinal string comparison. -/
theorem report_rows_sorted (frecs : List FileRecord)
    (erecs : List ExternalShareRecord) :
    (WriteFilesByOwner frecs).head? = some filesByOwnerHeader
    ∧ List.Sorted rowLe (WriteFilesByOwner frecs).tail
    ∧ (WriteFilesByOwner frecs).tail.Perm (frecs.map fileRow)
    ∧ (WriteExternalSharing erecs).head? = some externalSharingHeader
    ∧ List.Sorted rowLe (WriteExternalSharing erecs).tail
    ∧ (WriteExternalSharing erecs).tail.Perm (erecs.map shareRow) := by
  refine ⟨rfl, ?_, ?_, rfl, ?_, ?_⟩
  · have hs := List.sorted_insertionSort fileRecLe frecs
    have : List.Sorted rowLe
        ((List.insertionSort fileRecLe frecs).map fileRow) := by
      rw [List.Sorted, List.pairwise_map]
      exact hs.imp fileRow_mono
    simpa [WriteFilesByOwner] using this
  · have hp := (List.perm_insertionSort fileRecLe frecs).map fileRow
    simpa [WriteFilesByOwner] using hp
  · have hs := List.sorted_insertionSort shareRecLe erecs
    have : List.Sorted rowLe
        ((List.insertionSort shareRecLe erecs).map shareRow) := by
      rw [List.Sorted, List.pairwise_map]
      exact hs.imp shareRow_mono
    simpa [WriteExternalSharing] using this
  · have hp := (List.perm_insertionSort shareRecLe erecs).map shareRow
    simpa [WriteExternalSharing] using hp
